import Mathlib

/-!
# Shallow embedding of the `aip` brute-force piecewise-model search core

This file embeds the combinatorial core of the `aip` library (C++ headers under
`include/aip/`) in Lean 4 and proves the testable properties stated in its
specification.

Embedding conventions:
* `std::size_t` values become `Nat` (sizes, indices; the code never relies on
  wraparound of `size_t`, all quantities stay far below `2^64` in the regimes
  the spec talks about, and every arithmetic operation used — `%`, `/`, `+`,
  `*` — agrees with `Nat` arithmetic on in-range values).
* `std::array<std::size_t, N>` multi-indices become `List Nat` of length `N`.
* `std::optional<T>` becomes `Option T`.
* A `ParamGrid`'s per-dimension ranges enter only through their sizes for the
  index/iteration claims, so a grid is represented by its list of per-dimension
  bases (`List Nat`); for the claims that need actual parameter values
  (scalar `double` grids) we embed `UniformRange` over `ℚ` (all values involved
  in those claims are small dyadic rationals, on which IEEE-754 double
  arithmetic is exact).
* Stateful C++ objects (strategies, entries, the orchestrator) become
  structures with explicit state passing: a member function mutating `this`
  and returning `R` becomes a Lean function `State → R × State`.
-/

namespace AIP

/-! ## IndexSpace (`include/aip/search/index_space.hpp`, `index_space_from_grid.hpp`)

`make_index_space` fills `bases[i] = grid.get<I>().size()` and computes `total`
by a product loop that breaks to `0` as soon as a base is `0`.  We keep just the
bases list and compute the total by the same loop. -/

/-- Total of an index space, as computed by the loop in `make_index_space`
(`index_space_from_grid.hpp:37-46`): product of the bases, `0` as soon as a
base is `0` (over `Nat` this equals the plain product). -/
def totalOf : List Nat → Nat
  | [] => 1
  | b :: bs => if b = 0 then 0 else b * totalOf bs

theorem totalOf_eq_prod (bs : List Nat) : totalOf bs = bs.prod := by
  induction bs with
  | nil => rfl
  | cons b bs ih =>
    simp only [totalOf, List.prod_cons, ih]
    by_cases h : b = 0 <;> simp [h]

theorem totalOf_pos {bs : List Nat} (h : ∀ b ∈ bs, 0 < b) : 0 < totalOf bs := by
  rw [totalOf_eq_prod]
  exact List.prod_pos h

theorem pos_of_totalOf_pos {bs : List Nat} (h : 0 < totalOf bs) :
    ∀ b ∈ bs, 0 < b := by
  rw [totalOf_eq_prod] at h
  intro b hb
  rcases Nat.eq_zero_or_pos b with h0 | h0
  · subst h0
    rw [List.prod_eq_zero hb] at h
    exact absurd h (lt_irrefl 0)
  · exact h0

/-! ## Mixed-radix decode / encode

The decode loop `idx[i] = (b>0) ? local % b : 0; local = (b>0) ? local / b : 0`
appears verbatim in `Orchestrator::makePiecewise` (`orchestrator.hpp:242-245`,
over entry sizes), `Orchestrator::Entry::addAt` (`orchestrator.hpp:130-134`),
`FreeEntry::makeAt` (`free_entry.hpp:37-41`), `ConstrainedEntry::makeAt`
(`constrained_entry.hpp:59-63`) and — with the `b == 0` guard written as
`(b == 0) ? 0 : ...` — in `linear_to_multi_index` (`index_unrank.hpp:31-36`).

The encode loop `local += v * mul; mul *= base` with `none` on a zero base or
an out-of-range digit is `EntryWithStrategyBase::currentLocal`
(`entry_with_strategy_base.hpp:56-70`) and `localFromIdx`
(`free_entry.hpp:77-95`); the accumulator recursion below computes the same
sum `Σ v_i · Π_{j<i} b_j`. -/

/-- Mixed-radix decomposition of a linear index over a list of bases,
dimension 0 fastest-varying. -/
def decodeIdx : List Nat → Nat → List Nat
  | [], _ => []
  | b :: bs, g =>
      (if b = 0 then 0 else g % b) :: decodeIdx bs (if b = 0 then 0 else g / b)

/-- Mixed-radix recomposition `Σ idx[i] * Π_{j<i} bases[j]`
(`EntryWithStrategyBase::currentLocal`): `none` if a base is `0`, a digit is
out of range, or the lengths disagree. -/
def encodeLocal : List Nat → List Nat → Option Nat
  | [], [] => some 0
  | b :: bs, v :: vs =>
      if b = 0 then none
      else if b ≤ v then none
      else match encodeLocal bs vs with
        | some rest => some (v + b * rest)
        | none => none
  | _, _ => none

theorem decodeIdx_length (bs : List Nat) (g : Nat) :
    (decodeIdx bs g).length = bs.length := by
  induction bs generalizing g with
  | nil => rfl
  | cons b bs ih => simp [decodeIdx, ih]

theorem decodeIdx_zero (bs : List Nat) :
    decodeIdx bs 0 = List.replicate bs.length 0 := by
  induction bs with
  | nil => rfl
  | cons b bs ih =>
    simp only [decodeIdx, List.replicate, List.cons.injEq]
    constructor
    · split <;> simp
    · split <;> simpa using ih

/-- Each decoded digit is strictly below its (positive) base. -/
theorem decodeIdx_lt {bs : List Nat} (h : ∀ b ∈ bs, 0 < b) (g : Nat) :
    List.Forall₂ (· < ·) (decodeIdx bs g) bs := by
  induction bs generalizing g with
  | nil => exact List.Forall₂.nil
  | cons b bs ih =>
    have hb : 0 < b := h b (List.mem_cons_self b bs)
    have hb' : ¬ b = 0 := by omega
    simp only [decodeIdx, if_neg hb']
    exact List.Forall₂.cons (Nat.mod_lt _ hb) (ih (fun x hx => h x (List.mem_cons_of_mem _ hx)) _)

/-- Recomposing a decomposition reproduces the linear index (for `g < total`). -/
theorem encode_decode {bs : List Nat} {g : Nat} (hg : g < totalOf bs) :
    encodeLocal bs (decodeIdx bs g) = some g := by
  induction bs generalizing g with
  | nil =>
    simp only [totalOf] at hg
    interval_cases g
    rfl
  | cons b bs ih =>
    have hb : ¬ b = 0 := by
      intro h; rw [totalOf, if_pos h] at hg; omega
    have hbpos : 0 < b := Nat.pos_of_ne_zero hb
    rw [totalOf, if_neg hb] at hg
    have hdiv : g / b < totalOf bs := Nat.div_lt_of_lt_mul (by omega)
    simp only [decodeIdx, if_neg hb, encodeLocal, ih hdiv]
    have hmod : g % b < b := Nat.mod_lt _ hbpos
    rw [if_neg (by omega : ¬ b ≤ g % b)]
    simp [Nat.mod_add_div g b]

/-- Decomposing a recomposition reproduces the digits, and the recomposed
value lies below the total. -/
theorem decode_encode {bs vs : List Nat} (h : List.Forall₂ (· < ·) vs bs) :
    ∃ g, encodeLocal bs vs = some g ∧ g < totalOf bs ∧ decodeIdx bs g = vs := by
  induction h with
  | nil => exact ⟨0, rfl, Nat.one_pos, rfl⟩
  | @cons v b vs bs hvb _ ih =>
    obtain ⟨g, hg, hlt, hdec⟩ := ih
    have hb : ¬ b = 0 := by omega
    refine ⟨v + b * g, ?_, ?_, ?_⟩
    · simp [encodeLocal, hg, if_neg hb, if_neg (by omega : ¬ b ≤ v)]
    · rw [totalOf, if_neg hb]
      calc v + b * g < b * (g + 1) := by nlinarith
        _ ≤ b * totalOf bs := Nat.mul_le_mul_left b hlt
    · simp only [decodeIdx, if_neg hb]
      rw [Nat.add_mul_mod_self_left, Nat.mod_eq_of_lt hvb,
        Nat.add_mul_div_left v g (Nat.pos_of_ne_zero hb), Nat.div_eq_of_lt hvb,
        Nat.zero_add, hdec]

/-- The decode map is injective on `[0, total)`. -/
theorem decodeIdx_injOn {bs : List Nat} {g g' : Nat} (hg : g < totalOf bs)
    (hg' : g' < totalOf bs) (h : decodeIdx bs g = decodeIdx bs g') : g = g' := by
  have := encode_decode hg
  rw [h, encode_decode hg'] at this
  exact (Option.some_injective _ this).symm

/-! ## Forward enumeration strategy (`include/aip/search/enumeration_strategy.hpp`)

State after `reset(space)`: `current` all zeros, `first = true`,
`finished = (total == 0)`.  `next()` returns `current` on the first call, then
performs the mixed-radix increment loop (`enumeration_strategy.hpp:56-64`):
`++current[i]`, returning when the digit stays below its base, zeroing it and
carrying otherwise; a full carry (or a zero base) sets `finished`.

The C++ object also holds a nullable `space` pointer that is set by `reset`;
every claim starts from a `reset` state, so the embedded state always carries
its bases.  When the loop meets a zero base it sets `finished` and returns
`nullopt` with `current` partially zeroed; since `finished` is permanent and
`current` is never read afterwards, the embedding zeroes nothing there. -/

/-- One pass of the increment loop of `EnumerationStrategy::next`: `some` of
the incremented multi-index, or `none` when the loop falls through (full carry)
or meets a zero base. -/
def incrementMixed : List Nat → List Nat → Option (List Nat)
  | [], [] => none
  | b :: bs, c :: cs =>
      if b = 0 then none
      else if c + 1 < b then some ((c + 1) :: cs)
      else match incrementMixed bs cs with
        | some rest => some (0 :: rest)
        | none => none
  | _, _ => none

/-- State of `EnumerationStrategy` (post-`reset`): the index space's bases plus
the `current` / `first` / `finished` members. -/
structure EnumerationStrategy where
  bases : List Nat
  current : List Nat
  first : Bool
  finished : Bool

/-- Embeds `EnumerationStrategy::reset` (`enumeration_strategy.hpp:35-40`). -/
def EnumerationStrategy.reset (s : List Nat) : EnumerationStrategy :=
  { bases := s
    current := List.replicate s.length 0
    first := true
    finished := decide (totalOf s = 0) }

/-- Embeds `EnumerationStrategy::next` (`enumeration_strategy.hpp:47-68`). -/
def EnumerationStrategy.next (st : EnumerationStrategy) :
    Option (List Nat) × EnumerationStrategy :=
  if st.finished then (none, st)
  else if st.first then (some st.current, { st with first := false })
  else match incrementMixed st.bases st.current with
    | some c => (some c, { st with current := c })
    | none => (none, { st with finished := true })

/-- Outputs of `n` successive `next()` calls on a strategy state. -/
def EnumerationStrategy.run (st : EnumerationStrategy) : Nat → List (Option (List Nat))
  | 0 => []
  | n + 1 =>
      let p := st.next
      p.1 :: p.2.run n

/-- The canonical strategy state positioned at combination `k`:
`current = decodeIdx bases k`, past the first call, not finished. -/
def stateAt (bases : List Nat) (k : Nat) : EnumerationStrategy :=
  { bases := bases, current := decodeIdx bases k, first := false, finished := false }

/-- The mixed-radix increment realizes the successor of the decode map. -/
theorem incrementMixed_decode_some {bs : List Nat} {k : Nat}
    (h : k + 1 < totalOf bs) :
    incrementMixed bs (decodeIdx bs k) = some (decodeIdx bs (k + 1)) := by
  induction bs generalizing k with
  | nil => simp [totalOf] at h
  | cons b bs ih =>
    have hb : ¬ b = 0 := by
      intro h0; rw [totalOf, if_pos h0] at h; omega
    have hbpos : 0 < b := Nat.pos_of_ne_zero hb
    rw [totalOf, if_neg hb] at h
    have hmod : k % b < b := Nat.mod_lt _ hbpos
    simp only [decodeIdx, if_neg hb, incrementMixed]
    by_cases hc : k % b + 1 < b
    · -- no carry: (k+1) % b = k % b + 1, (k+1) / b = k / b
      have e1 : (k + 1) % b = k % b + 1 := by
        conv_lhs => rw [← Nat.div_add_mod k b]
        rw [Nat.add_assoc, Nat.mul_add_mod]
        exact Nat.mod_eq_of_lt hc
      have e2 : (k + 1) / b = k / b := by
        conv_lhs => rw [← Nat.div_add_mod k b]
        rw [Nat.add_assoc, Nat.mul_add_div hbpos, Nat.div_eq_of_lt hc]
        omega
      simp [hc, e1, e2]
    · -- wrap case: k % b = b - 1, so (k+1) % b = 0 and (k+1) / b = k / b + 1
      have hwrap : k % b + 1 = b := by omega
      have e1 : (k + 1) % b = 0 := by
        conv_lhs => rw [← Nat.div_add_mod k b]
        rw [Nat.add_assoc, Nat.mul_add_mod, hwrap, Nat.mod_self]
      have e2 : (k + 1) / b = k / b + 1 := by
        conv_lhs => rw [← Nat.div_add_mod k b]
        rw [Nat.add_assoc, Nat.mul_add_div hbpos, hwrap, Nat.div_self hbpos]
      have hrec : k / b + 1 < totalOf bs := by
        have hk1 : k + 1 = b * (k / b + 1) := by
          conv_lhs => rw [← Nat.div_add_mod k b]
          ring_nf
          omega
        rw [hk1] at h
        exact lt_of_mul_lt_mul_left (by omega) (Nat.zero_le b)
      rw [ih hrec]
      simp [hc, e1, e2]

/-- At the last combination the increment loop falls through: full carry. -/
theorem incrementMixed_decode_none {bs : List Nat} {k : Nat}
    (hk : k < totalOf bs) (h : k + 1 = totalOf bs) :
    incrementMixed bs (decodeIdx bs k) = none := by
  induction bs generalizing k with
  | nil =>
    simp only [totalOf] at h hk
    simp [decodeIdx, incrementMixed]
  | cons b bs ih =>
    have hb : ¬ b = 0 := by
      intro h0; rw [totalOf, if_pos h0] at hk; omega
    have hbpos : 0 < b := Nat.pos_of_ne_zero hb
    rw [totalOf, if_neg hb] at h hk
    have hmod : k % b < b := Nat.mod_lt _ hbpos
    simp only [decodeIdx, if_neg hb, incrementMixed]
    -- k + 1 = b * totalOf bs forces a full carry in every digit
    have hwrap : k % b + 1 = b := by
      by_contra hc
      have hc' : k % b + 1 < b := by omega
      -- k + 1 would be divisible by b, yet congruent to k % b + 1 ≠ 0 (mod b)
      have h0 : (k + 1) % b = 0 := by
        rw [h]
        exact Nat.mul_mod_right b (totalOf bs)
      have e1 : (k + 1) % b = k % b + 1 := by
        conv_lhs => rw [← Nat.div_add_mod k b]
        rw [Nat.add_assoc, Nat.mul_add_mod]
        exact Nat.mod_eq_of_lt hc'
      omega
    have e2 : (k + 1) / b = k / b + 1 := by
      conv_lhs => rw [← Nat.div_add_mod k b]
      rw [Nat.add_assoc, Nat.mul_add_div hbpos, hwrap, Nat.div_self hbpos]
    have hk1 : k + 1 = b * (k / b + 1) := by
      conv_lhs => rw [← Nat.div_add_mod k b]
      ring_nf
      omega
    have hrec_eq : k / b + 1 = totalOf bs := by
      rw [hk1] at h
      exact Nat.eq_of_mul_eq_mul_left hbpos h
    have hrec_lt : k / b < totalOf bs := by omega
    rw [ih hrec_lt hrec_eq, if_neg (show ¬ k % b + 1 < b by omega)]

/-- A finished strategy answers `none` forever. -/
theorem run_finished {st : EnumerationStrategy} (h : st.finished = true) (n : Nat) :
    st.run n = List.replicate n none := by
  induction n with
  | zero => rfl
  | succ n ih =>
    simp only [EnumerationStrategy.run, EnumerationStrategy.next, h, if_pos]
    simpa [List.replicate] using ih

/-- Stepping the canonical state: before the last combination, `next()` yields
the successor combination. -/
theorem stateAt_next_some {bs : List Nat} {k : Nat} (h : k + 1 < totalOf bs) :
    (stateAt bs k).next = (some (decodeIdx bs (k + 1)), stateAt bs (k + 1)) := by
  simp [EnumerationStrategy.next, stateAt, incrementMixed_decode_some h]

/-- Stepping the canonical state at the last combination: full carry,
`finished` is set. -/
theorem stateAt_next_none {bs : List Nat} {k : Nat} (hk : k < totalOf bs)
    (h : k + 1 = totalOf bs) :
    (stateAt bs k).next = (none, { stateAt bs k with finished := true }) := by
  simp [EnumerationStrategy.next, stateAt, incrementMixed_decode_none hk h]

/-- Running from the canonical state at `k`: the remaining outputs are the
combinations `k+1, …, total-1`, then `none`. -/
theorem run_stateAt {bs : List Nat} (k n : Nat) (hk : k < totalOf bs) :
    (stateAt bs k).run n =
      ((List.range' (k + 1) (min n (totalOf bs - 1 - k))).map
        (fun j => some (decodeIdx bs j))) ++
      List.replicate (n - (totalOf bs - 1 - k)) none := by
  induction n generalizing k with
  | zero => simp [EnumerationStrategy.run]
  | succ n ih =>
    by_cases ht : totalOf bs - 1 - k = 0
    · have hlast : k + 1 = totalOf bs := by omega
      simp only [EnumerationStrategy.run, stateAt_next_none hk hlast]
      rw [run_finished rfl n]
      simp [ht, List.replicate]
    · have hstep : k + 1 < totalOf bs := by omega
      simp only [EnumerationStrategy.run, stateAt_next_some hstep]
      rw [ih (k + 1) hstep]
      have hmin : min (n + 1) (totalOf bs - 1 - k) =
          min n (totalOf bs - 1 - (k + 1)) + 1 := by omega
      have hrep : n + 1 - (totalOf bs - 1 - k) =
          n - (totalOf bs - 1 - (k + 1)) := by omega
      rw [hmin, hrep, List.range'_succ]
      simp

/-- Running from a freshly `reset` strategy: the outputs are exactly
`decodeIdx 0, …, decodeIdx (total-1)` (in order), then `none` forever. -/
theorem run_reset (bs : List Nat) (n : Nat) :
    (EnumerationStrategy.reset bs).run n =
      ((List.range (min n (totalOf bs))).map (fun k => some (decodeIdx bs k))) ++
      List.replicate (n - totalOf bs) none := by
  by_cases hT : totalOf bs = 0
  · have : (EnumerationStrategy.reset bs).finished = true := by
      simp [EnumerationStrategy.reset, hT]
    rw [run_finished this n]
    simp [hT]
  · cases n with
    | zero => simp [EnumerationStrategy.run]
    | succ n =>
      have hfirst : (EnumerationStrategy.reset bs).next =
          (some (decodeIdx bs 0), stateAt bs 0) := by
        simp only [EnumerationStrategy.next, EnumerationStrategy.reset, stateAt,
          decodeIdx_zero]
        simp [hT]
      simp only [EnumerationStrategy.run, hfirst]
      rw [run_stateAt 0 n (Nat.pos_of_ne_zero hT)]
      have hmin : min (n + 1) (totalOf bs) = min n (totalOf bs - 1 - 0) + 1 := by
        omega
      have hrep : n + 1 - totalOf bs = n - (totalOf bs - 1 - 0) := by omega
      rw [hmin, hrep, List.range_eq_range', List.range'_succ]
      simp

/-- The enumerated combinations are pairwise distinct. -/
theorem decode_range_nodup (bs : List Nat) :
    ((List.range (totalOf bs)).map (decodeIdx bs)).Nodup := by
  refine List.Nodup.map_on ?_ (List.nodup_range _)
  intro g hg g' hg' h
  exact decodeIdx_injOn (List.mem_range.mp hg) (List.mem_range.mp hg') h

/-- Every multi-index of the space is enumerated. -/
theorem decode_range_covers {bs idx : List Nat}
    (hidx : List.Forall₂ (· < ·) idx bs) :
    idx ∈ (List.range (totalOf bs)).map (decodeIdx bs) := by
  obtain ⟨g, _, hlt, hdec⟩ := decode_encode hidx
  exact List.mem_map.mpr ⟨g, List.mem_range.mpr hlt, hdec⟩

/-- Claim C3: For every `IndexSpace` with bases `b0..bk-1`, after
`EnumerationStrategy::reset(space)` the successful `next()` calls yield exactly
`∏ bi` distinct multi-indices — the mixed-radix decodes of `0, …, total-1`, so
dimension 0 varies fastest and the space is covered exactly once (0 successful
calls when a base is 0, since then `totalOf = 0`) — and every call after the
`total`-th returns `none`. -/
theorem enumeration_strategy_contract (bs : List Nat) (n : Nat) (idx : List Nat)
    (hn : totalOf bs ≤ n) (hidx : List.Forall₂ (· < ·) idx bs) :
    ((EnumerationStrategy.reset bs).run n =
        ((List.range (totalOf bs)).map (fun k => some (decodeIdx bs k))) ++
        List.replicate (n - totalOf bs) none) ∧
    ((List.range (totalOf bs)).map (decodeIdx bs)).Nodup ∧
    idx ∈ (List.range (totalOf bs)).map (decodeIdx bs) := by
  refine ⟨?_, decode_range_nodup bs, decode_range_covers hidx⟩
  rw [run_reset bs n, min_eq_right hn]

/-- Witness for `enumeration_strategy_contract` at the concrete space
`bases = [2, 3]` (`total = 6`), seven calls, multi-index `[1, 2]`. -/
theorem enumeration_strategy_contract_witness :
    ((EnumerationStrategy.reset [2, 3]).run 7 =
        ((List.range (totalOf [2, 3])).map (fun k => some (decodeIdx [2, 3] k))) ++
        List.replicate (7 - totalOf [2, 3]) none) ∧
    ((List.range (totalOf [2, 3])).map (decodeIdx [2, 3])).Nodup ∧
    [1, 2] ∈ (List.range (totalOf [2, 3])).map (decodeIdx [2, 3]) :=
  enumeration_strategy_contract [2, 3] 7 [1, 2] (by decide)
    (by decide)

/-! ## Reverse enumeration strategy
(`include/aip/search/reverse_enumeration_strategy.hpp`)

`reset` puts `currentLocal = total - 1` (`finished` immediately when
`total == 0`); `next()` decodes `currentLocal` by the mod/div loop — bailing
out with `none` (and `finished`) if a base is `0` — then decrements, setting
`finished` once local `0` has been emitted.  The in-loop zero-base check is
embedded as one up-front `any` test: the C++ loop returns `nullopt` exactly
when some base is `0`, and otherwise completes the full decode. -/

/-- State of `ReverseEnumerationStrategy` (post-`reset`). -/
structure ReverseEnumerationStrategy where
  bases : List Nat
  currentLocal : Nat
  finished : Bool

/-- Embeds `ReverseEnumerationStrategy::reset` (`reverse_enumeration_strategy.hpp:26-35`). -/
def ReverseEnumerationStrategy.reset (s : List Nat) : ReverseEnumerationStrategy :=
  if totalOf s = 0 then { bases := s, currentLocal := 0, finished := true }
  else { bases := s, currentLocal := totalOf s - 1, finished := false }

/-- Embeds `ReverseEnumerationStrategy::next` (`reverse_enumeration_strategy.hpp:37-54`). -/
def ReverseEnumerationStrategy.next (st : ReverseEnumerationStrategy) :
    Option (List Nat) × ReverseEnumerationStrategy :=
  if st.finished then (none, st)
  else if st.bases.any (fun b => decide (b = 0)) then (none, { st with finished := true })
  else
    let idx := decodeIdx st.bases st.currentLocal
    if st.currentLocal = 0 then (some idx, { st with finished := true })
    else (some idx, { st with currentLocal := st.currentLocal - 1 })

/-- Outputs of `n` successive `next()` calls on a reverse strategy state. -/
def ReverseEnumerationStrategy.run (st : ReverseEnumerationStrategy) :
    Nat → List (Option (List Nat))
  | 0 => []
  | n + 1 =>
      let p := st.next
      p.1 :: p.2.run n

theorem rev_run_finished {st : ReverseEnumerationStrategy} (h : st.finished = true)
    (n : Nat) : st.run n = List.replicate n none := by
  induction n with
  | zero => rfl
  | succ n ih =>
    simp only [ReverseEnumerationStrategy.run, ReverseEnumerationStrategy.next, h,
      if_pos]
    simpa [List.replicate] using ih

/-- Running the reverse strategy from local `j` downwards: outputs
`decode j, decode (j-1), …, decode 0`, then `none`. -/
theorem rev_run_at {bs : List Nat} (hpos : ∀ b ∈ bs, 0 < b) (j n : Nat) :
    (ReverseEnumerationStrategy.mk bs j false).run n =
      ((List.range (min n (j + 1))).map (fun i => some (decodeIdx bs (j - i)))) ++
      List.replicate (n - (j + 1)) none := by
  have hany : bs.any (fun b => decide (b = 0)) = false := by
    rw [List.any_eq_false]
    intro b hb
    have := hpos b hb
    simp only [decide_eq_true_eq]
    omega
  induction n generalizing j with
  | zero => simp [ReverseEnumerationStrategy.run]
  | succ n ih =>
    by_cases hj : j = 0
    · subst hj
      simp only [ReverseEnumerationStrategy.run, ReverseEnumerationStrategy.next,
        hany, if_pos rfl, Bool.false_eq_true, if_neg, if_false]
      rw [rev_run_finished rfl n]
      simp [List.replicate]
    · simp only [ReverseEnumerationStrategy.run, ReverseEnumerationStrategy.next,
        hany, if_neg hj, Bool.false_eq_true, if_false]
      rw [ih (j - 1)]
      have hmin : min (n + 1) (j + 1) = min n (j - 1 + 1) + 1 := by omega
      have hrep : n + 1 - (j + 1) = n - (j - 1 + 1) := by omega
      rw [hmin, hrep, List.range_succ_eq_map]
      simp only [List.map_cons, List.map_map, List.cons_append, Nat.sub_zero]
      congr 2
      apply List.map_congr_left
      intro i _
      simp only [Function.comp_apply, Nat.succ_eq_add_one]
      congr 2
      omega

/-- Running the reverse strategy from `reset`: combinations `total-1, …, 0`
in order, then `none` forever. -/
theorem rev_run_reset (bs : List Nat) (n : Nat) :
    (ReverseEnumerationStrategy.reset bs).run n =
      ((List.range (min n (totalOf bs))).map
        (fun i => some (decodeIdx bs (totalOf bs - 1 - i)))) ++
      List.replicate (n - totalOf bs) none := by
  by_cases hT : totalOf bs = 0
  · have : (ReverseEnumerationStrategy.reset bs).finished = true := by
      simp [ReverseEnumerationStrategy.reset, hT]
    rw [rev_run_finished this n]
    simp [hT]
  · have hpos := pos_of_totalOf_pos (Nat.pos_of_ne_zero hT)
    have : ReverseEnumerationStrategy.reset bs =
        ReverseEnumerationStrategy.mk bs (totalOf bs - 1) false := by
      simp [ReverseEnumerationStrategy.reset, hT]
    rw [this, rev_run_at hpos]
    have : totalOf bs - 1 + 1 = totalOf bs := by omega
    rw [this]

theorem filterMap_id_replicate_none {α : Type} (m : Nat) :
    List.filterMap id (List.replicate m (none : Option α)) = [] := by
  induction m with
  | zero => rfl
  | succ m ih => simp [List.replicate, ih]

theorem filterMap_id_map_some {α β : Type} (f : α → β) (l : List α) :
    List.filterMap id (l.map (fun x => some (f x))) = l.map f := by
  induction l with
  | nil => rfl
  | cons x l ih => simpa using ih

/-- Claim C7: For every `IndexSpace`, a `ReverseEnumerationStrategy` run from
`reset(space)` to exhaustion yields exactly the same multi-indices as the
forward `EnumerationStrategy` over the same space, in exactly the reversed
order (so the `i`-th reverse output is the `(total-1-i)`-th forward output). -/
theorem reverse_strategy_reverses_forward (bs : List Nat) (n : Nat)
    (hn : totalOf bs ≤ n) :
    List.filterMap id ((ReverseEnumerationStrategy.reset bs).run n) =
      (List.filterMap id ((EnumerationStrategy.reset bs).run n)).reverse := by
  rw [run_reset, rev_run_reset, min_eq_right hn,
    List.filterMap_append, List.filterMap_append,
    filterMap_id_replicate_none,
    filterMap_id_map_some, filterMap_id_map_some,
    List.append_nil, List.append_nil]
  rw [← List.map_reverse, List.range_eq_range', List.reverse_range',
    List.map_map, ← List.range_eq_range']
  apply List.map_congr_left
  intro i hi
  simp only [Function.comp_apply]
  congr 1
  omega

/-- Witness for `reverse_strategy_reverses_forward` at `bases = [2, 3]`,
six calls. -/
theorem reverse_strategy_reverses_forward_witness :
    List.filterMap id ((ReverseEnumerationStrategy.reset [2, 3]).run 6) =
      (List.filterMap id ((EnumerationStrategy.reset [2, 3]).run 6)).reverse :=
  reverse_strategy_reverses_forward [2, 3] 6 (by decide)

/-- Claim C2: For every list of (positive) per-entry sizes and every global
index `g < total`: decomposing `g` by successive modulo/division with entry 0
fastest-varying (as `Orchestrator::makePiecewise` does) and recomposing the
locals as `Σ local_i · Π_{j<i} size_j` (as
`EntryWithStrategyBase::currentLocal` does) reproduces `g`, and this
decomposition is a bijection between `[0, total)` and the tuples of per-entry
local indices. -/
theorem global_index_bijection (sizes : List Nat) (g : Nat)
    (hpos : ∀ s ∈ sizes, 0 < s) (hg : g < totalOf sizes) :
    encodeLocal sizes (decodeIdx sizes g) = some g ∧
    Set.BijOn (decodeIdx sizes) (Set.Iio (totalOf sizes))
      {ls | List.Forall₂ (· < ·) ls sizes} := by
  refine ⟨encode_decode hg, ?_, ?_, ?_⟩
  · intro g' hg'
    exact decodeIdx_lt hpos g'
  · intro a ha b hb h
    exact decodeIdx_injOn ha hb h
  · intro ls hls
    obtain ⟨g', _, hlt, hdec⟩ := decode_encode hls
    exact ⟨g', hlt, hdec⟩

/-- Witness for `global_index_bijection` at `sizes = [2, 3]`, `g = 4`. -/
theorem global_index_bijection_witness :
    encodeLocal [2, 3] (decodeIdx [2, 3] 4) = some 4 ∧
    Set.BijOn (decodeIdx [2, 3]) (Set.Iio (totalOf [2, 3]))
      {ls | List.Forall₂ (· < ·) ls [2, 3]} :=
  global_index_bijection [2, 3] 4 (by decide) (by decide)

/-! ## Orchestrator (`include/aip/core/orchestrator.hpp`)

`Orchestrator<In, Out, Domain, StrategyT = EnumerationStrategy>` holds a
vector of type-erased entries; `Entry<Grid>` keeps the domain, the grid, an
`IndexSpace`, a strategy and an optional current multi-index.

The claims about the orchestrator's iteration and global-index decoding
concern only the chosen per-entry multi-indices: the model an entry
contributes is `grid.makeModel(idx)` (`addTo`, `orchestrator.hpp:122`) —
fully determined by the multi-index `idx`, the grid being immutable.  The
embedding therefore represents an entry by its list of per-dimension bases
(the grid's range sizes, which `make_index_space` extracts) plus the mutable
strategy/cursor state, and represents a produced `PiecewiseModel` by the list
of per-entry multi-indices that built it ("the parameter assignment per
entry").  Only the default `StrategyT = EnumerationStrategy` is embedded —
the strategy the claims about `makePiecewise` equivalence are about. -/

/-- State of an `Orchestrator::Entry`: per-dimension bases (from the grid), the
strategy state, and the optional current multi-index. -/
structure Entry where
  bases : List Nat
  strat : EnumerationStrategy
  current : Option (List Nat)

/-- Embeds `Entry::size` = `grid.size()` = product of the per-dimension range sizes
(`ParamGrid::size`, `param_grid.hpp:201-205`). -/
def Entry.size (e : Entry) : Nat := e.bases.prod

/-- Embeds `Entry::reset` (`orchestrator.hpp:109-114`): rebuild the space, reset the
strategy, then pull the first combination. -/
def Entry.reset (e : Entry) : Entry :=
  let st := EnumerationStrategy.reset e.bases
  let p := st.next
  { bases := e.bases, strat := p.2, current := p.1 }

/-- Embeds `Entry::next` (`orchestrator.hpp:102-107`): `false` if no current, else
advance the strategy. -/
def Entry.next (e : Entry) : Bool × Entry :=
  match e.current with
  | none => (false, e)
  | some _ =>
      let p := e.strat.next
      (p.1.isSome, { e with strat := p.2, current := p.1 })

/-- Embeds `Entry::addAt` (`orchestrator.hpp:126-138`): stateless decode of a local
index into the multi-index that builds the contributed model. -/
def Entry.addAt (e : Entry) (local' : Nat) : List Nat := decodeIdx e.bases local'

/-- A fresh entry as `Orchestrator::add` constructs it (strategy default
state: `finished = true`, no current). -/
def Entry.init (bases : List Nat) : Entry :=
  { bases := bases
    strat := { bases := [], current := [], first := true, finished := true }
    current := none }

/-- State of an `Orchestrator`: entries plus the two iteration flags. -/
structure OrchState where
  entries : List Entry
  iterate_ready : Bool
  iterate_finished : Bool

/-- An orchestrator freshly populated through `Orchestrator::add`
(`orchestrator.hpp:155-161`): both flags cleared. -/
def OrchState.init (bs : List (List Nat)) : OrchState :=
  { entries := bs.map Entry.init, iterate_ready := false, iterate_finished := false }

/-- Embeds `Orchestrator::size` (`orchestrator.hpp:163-168`): `0` when empty, else
the product of the entry sizes. -/
def OrchState.size (s : OrchState) : Nat :=
  if s.entries.isEmpty then 0 else (s.entries.map Entry.size).prod

/-- Embeds `Orchestrator::reset` (`orchestrator.hpp:175-196`): set `iterate_ready`,
clear `iterate_finished` (empty orchestrator: finished immediately), reset
every entry, and finish immediately when some entry has size `0`. -/
def OrchState.reset (s : OrchState) : OrchState :=
  if s.entries.isEmpty then
    { s with iterate_ready := true, iterate_finished := true }
  else
    let es := s.entries.map Entry.reset
    { entries := es
      iterate_ready := true
      iterate_finished := es.any (fun e => decide (e.size = 0)) }

/-- The odometer loop of `Orchestrator::next` (`orchestrator.hpp:213-226`):
advance entry 0; on exhaustion reset it and carry into the next entry;
exhausting the last entry reports iteration finished. -/
def advanceEntries : List Entry → List Entry × Bool
  | [] => ([], false)
  | e :: rest =>
      let p := e.next
      if p.1 then (p.2 :: rest, false)
      else
        let e' := p.2.reset
        match rest with
        | [] => ([e'], true)
        | _ :: _ =>
            let q := advanceEntries rest
            (e' :: q.1, q.2)

/-- Embeds `Orchestrator::next` (`orchestrator.hpp:203-229`): implicit `reset` if not
ready; `none` when finished; otherwise collect each entry's current
multi-index (`addTo` — the parameter assignment of the piecewise model built
from the current cursors), then advance the odometer.  `addTo` on an entry
with no current multi-index adds nothing (after an assertion), hence the
`filterMap`. -/
def OrchState.next (s : OrchState) : Option (List (List Nat)) × OrchState :=
  let s1 := if s.iterate_ready then s else s.reset
  if s1.iterate_finished then (none, s1)
  else
    let pm := s1.entries.filterMap (fun e => e.current)
    let q := advanceEntries s1.entries
    (some pm, { entries := q.1, iterate_ready := s1.iterate_ready,
                iterate_finished := q.2 })

/-- Outputs of `n` successive `Orchestrator::next` calls. -/
def OrchState.run (s : OrchState) : Nat → List (Option (List (List Nat)))
  | 0 => []
  | n + 1 =>
      let p := s.next
      p.1 :: p.2.run n

/-- Embeds `Orchestrator::makePiecewise` (`orchestrator.hpp:239-251`): decompose the
global index over the entry sizes (entry 0 fastest), and let each entry decode
its local into its multi-index (`addAt`).  The result is the parameter
assignment of the piecewise model built. -/
def makePiecewise : List (List Nat) → Nat → List (List Nat)
  | [], _ => []
  | e :: es, g =>
      let sz := e.prod
      decodeIdx e (if 0 < sz then g % sz else 0) ::
        makePiecewise es (if 0 < sz then g / sz else 0)

/-! ### Canonical iteration states and the odometer invariant -/

/-- Arithmetic of a non-carrying mixed-radix step. -/
theorem nat_step {b k : Nat} (hb : 0 < b) (hc : k % b + 1 < b) :
    (k + 1) % b = k % b + 1 ∧ (k + 1) / b = k / b := by
  constructor
  · conv_lhs => rw [← Nat.div_add_mod k b]
    rw [Nat.add_assoc, Nat.mul_add_mod]
    exact Nat.mod_eq_of_lt hc
  · conv_lhs => rw [← Nat.div_add_mod k b]
    rw [Nat.add_assoc, Nat.mul_add_div hb, Nat.div_eq_of_lt hc]
    omega

/-- Arithmetic of a carrying (wrapping) mixed-radix step. -/
theorem nat_wrap {b k : Nat} (hb : 0 < b) (hw : k % b + 1 = b) :
    (k + 1) % b = 0 ∧ (k + 1) / b = k / b + 1 := by
  constructor
  · conv_lhs => rw [← Nat.div_add_mod k b]
    rw [Nat.add_assoc, Nat.mul_add_mod, hw, Nat.mod_self]
  · conv_lhs => rw [← Nat.div_add_mod k b]
    rw [Nat.add_assoc, Nat.mul_add_div hb, hw, Nat.div_self hb]

/-- The canonical entry state positioned at local combination `m`. -/
def Entry.atPos (bases : List Nat) (m : Nat) : Entry :=
  { bases := bases, strat := stateAt bases m, current := some (decodeIdx bases m) }

theorem Entry.reset_atPos (e : Entry) (h : 0 < e.bases.prod) :
    e.reset = Entry.atPos e.bases 0 := by
  have hT : (EnumerationStrategy.reset e.bases) =
      { bases := e.bases, current := List.replicate e.bases.length 0,
        first := true, finished := false } := by
    unfold EnumerationStrategy.reset
    congr 1
    rw [decide_eq_false_iff_not, totalOf_eq_prod]
    omega
  unfold Entry.reset Entry.atPos
  rw [hT]
  unfold EnumerationStrategy.next
  simp [stateAt, decodeIdx_zero]

theorem Entry.atPos_next_some {bases : List Nat} {m : Nat}
    (h : m + 1 < totalOf bases) :
    (Entry.atPos bases m).next = (true, Entry.atPos bases (m + 1)) := by
  simp only [Entry.next, Entry.atPos, stateAt_next_some h, Option.isSome_some]

theorem Entry.atPos_next_none {bases : List Nat} {m : Nat}
    (hm : m < totalOf bases) (h : m + 1 = totalOf bases) :
    (Entry.atPos bases m).next =
      (false, Entry.mk bases { stateAt bases m with finished := true } none) := by
  simp only [Entry.next, Entry.atPos, stateAt_next_none hm h, Option.isSome_none]

/-- Product of the entry sizes of an orchestrator's entry list. -/
def prodSizes (bs : List (List Nat)) : Nat := (bs.map List.prod).prod

/-- The canonical entry states after `k` iteration steps: entry `i` sits at
local `(k / Π_{j<i} size_j) % size_i` — entry 0 fastest, as the odometer
advances. -/
def entriesAt : List (List Nat) → Nat → List Entry
  | [], _ => []
  | b :: rest, k => Entry.atPos b (k % b.prod) :: entriesAt rest (k / b.prod)

theorem entriesAt_cons (b : List Nat) (rest : List (List Nat)) (k : Nat) :
    entriesAt (b :: rest) k =
      Entry.atPos b (k % b.prod) :: entriesAt rest (k / b.prod) := rfl

/-- Odometer step, head entry advances: done, no carry. -/
theorem advanceEntries_cons_ok {e e' : Entry} {rest : List Entry}
    (h : e.next = (true, e')) :
    advanceEntries (e :: rest) = (e' :: rest, false) := by
  unfold advanceEntries
  rw [h]
  simp

/-- Odometer step, head entry exhausted and it was the last one. -/
theorem advanceEntries_cons_last {e e' : Entry} (h : e.next = (false, e')) :
    advanceEntries [e] = ([e'.reset], true) := by
  unfold advanceEntries
  rw [h]
  simp

/-- Odometer step, head entry exhausted: reset it, carry into the rest. -/
theorem advanceEntries_cons_carry {e e' : Entry} {rest : List Entry}
    (h : e.next = (false, e')) (hne : rest ≠ []) :
    advanceEntries (e :: rest) =
      (e'.reset :: (advanceEntries rest).1, (advanceEntries rest).2) := by
  unfold advanceEntries
  rw [h]
  cases rest with
  | nil => exact absurd rfl hne
  | cons r rs => rfl

theorem entriesAt_zero (bs : List (List Nat)) :
    entriesAt bs 0 = bs.map (fun b => Entry.atPos b 0) := by
  induction bs with
  | nil => rfl
  | cons b rest ih => simp [entriesAt, ih]

/-- The parameter assignments read off the canonical states are exactly what
`makePiecewise` builds at the same step count. -/
theorem entriesAt_currents {bs : List (List Nat)} (hpos : ∀ b ∈ bs, 0 < b.prod)
    (k : Nat) :
    (entriesAt bs k).filterMap (fun e => e.current) = makePiecewise bs k := by
  induction bs generalizing k with
  | nil => rfl
  | cons b rest ih =>
    have hb : 0 < b.prod := hpos b (List.mem_cons_self b rest)
    simp only [entriesAt, makePiecewise, List.filterMap_cons, Entry.atPos,
      if_pos hb]
    rw [ih (fun x hx => hpos x (List.mem_cons_of_mem _ hx))]

/-- The odometer loop advances the canonical states to step `k+1`, or wraps
them all to step `0` and reports exhaustion after the last combination. -/
theorem advance_entriesAt {bs : List (List Nat)} (hne : bs ≠ [])
    (hpos : ∀ b ∈ bs, 0 < b.prod) {k : Nat} (hk : k < prodSizes bs) :
    advanceEntries (entriesAt bs k) =
      if k + 1 < prodSizes bs then (entriesAt bs (k + 1), false)
      else (entriesAt bs 0, true) := by
  induction bs generalizing k with
  | nil => exact absurd rfl hne
  | cons b rest ih =>
    have hb : 0 < b.prod := hpos b (List.mem_cons_self b rest)
    have hbT : totalOf b = b.prod := totalOf_eq_prod b
    have hmod : k % b.prod < b.prod := Nat.mod_lt _ hb
    have hT : prodSizes (b :: rest) = b.prod * prodSizes rest := by
      simp [prodSizes]
    by_cases hc : k % b.prod + 1 < b.prod
    · -- entry 0 advances without carry
      have hnext := @Entry.atPos_next_some b (k % b.prod)
        (by rw [hbT]; omega)
      obtain ⟨e1, e2⟩ := nat_step hb hc
      have hlt : k + 1 < prodSizes (b :: rest) := by
        rw [hT]
        rcases Nat.lt_or_ge (k + 1) (b.prod * prodSizes rest) with h | h
        · exact h
        · exfalso
          have heq : k + 1 = b.prod * prodSizes rest := by rw [hT] at hk; omega
          have h0 : (k + 1) % b.prod = 0 := by
            rw [heq]; exact Nat.mul_mod_right _ _
          omega
      rw [entriesAt_cons b rest k, advanceEntries_cons_ok hnext, if_pos hlt,
        entriesAt_cons b rest (k + 1), e1, e2]
    · -- entry 0 wraps: carry into the rest
      have hw : k % b.prod + 1 = b.prod := by omega
      obtain ⟨e1, e2⟩ := nat_wrap hb hw
      have hnext := @Entry.atPos_next_none b (k % b.prod)
        (by rw [hbT]; omega) (by rw [hbT]; omega)
      have hreset : (Entry.mk b { stateAt b (k % b.prod) with finished := true }
          none).reset = Entry.atPos b 0 := Entry.reset_atPos _ hb
      cases rest with
      | nil =>
        -- single entry: exhaustion exactly at the last combination
        have hkT : k + 1 = prodSizes [b] := by
          have hmk : k % b.prod = k :=
            Nat.mod_eq_of_lt (by simpa [prodSizes] using hk)
          simp only [prodSizes, List.map_cons, List.map_nil, List.prod_cons,
            List.prod_nil, Nat.mul_one]
          omega
        rw [entriesAt_cons b [] k, if_neg (by omega : ¬ k + 1 < prodSizes [b])]
        show advanceEntries [Entry.atPos b (k % b.prod)] = _
        rw [advanceEntries_cons_last hnext, hreset, entriesAt_cons b [] 0]
        simp [entriesAt]
      | cons r rest' =>
        have hk' : k / b.prod < prodSizes (r :: rest') := by
          apply Nat.div_lt_of_lt_mul
          rw [hT] at hk
          omega
        have ihr := ih (by simp)
          (fun x hx => hpos x (List.mem_cons_of_mem _ hx)) hk'
        have hsplit : k + 1 = b.prod * (k / b.prod + 1) := by
          conv_lhs => rw [← Nat.div_add_mod k b.prod]
          ring_nf
          omega
        have hne' : entriesAt (r :: rest') (k / b.prod) ≠ [] := by
          rw [entriesAt_cons r rest' (k / b.prod)]
          simp
        rw [entriesAt_cons b (r :: rest') k,
          advanceEntries_cons_carry hnext hne', hreset, ihr]
        by_cases hrec : k / b.prod + 1 < prodSizes (r :: rest')
        · have hlt : k + 1 < prodSizes (b :: r :: rest') := by
            rw [hT, hsplit]
            exact mul_lt_mul_of_pos_left hrec hb
          rw [if_pos hrec, if_pos hlt, entriesAt_cons b (r :: rest') (k + 1),
            e1, e2]
        · have heq : k / b.prod + 1 = prodSizes (r :: rest') := by omega
          have hge : ¬ k + 1 < prodSizes (b :: r :: rest') := by
            rw [hT, hsplit, heq]
            omega
          rw [if_neg hrec, if_neg hge, entriesAt_cons b (r :: rest') 0]
          simp

/-- The canonical orchestrator state after `k` successful `next()` calls. -/
def orchAt (bs : List (List Nat)) (k : Nat) : OrchState :=
  { entries := entriesAt bs k, iterate_ready := true, iterate_finished := false }

theorem orch_reset_init {bs : List (List Nat)} (hne : bs ≠ [])
    (hpos : ∀ b ∈ bs, 0 < b.prod) :
    (OrchState.init bs).reset = orchAt bs 0 := by
  unfold OrchState.init OrchState.reset orchAt
  have hemp : (bs.map Entry.init).isEmpty = false := by
    cases bs with
    | nil => exact absurd rfl hne
    | cons b rest => rfl
  simp only [hemp, Bool.false_eq_true, if_false]
  have hents : (bs.map Entry.init).map Entry.reset =
      entriesAt bs 0 := by
    rw [entriesAt_zero, List.map_map]
    apply List.map_congr_left
    intro b hb
    exact Entry.reset_atPos _ (hpos b hb)
  rw [hents]
  have hany : (entriesAt bs 0).any (fun e => decide (e.size = 0)) = false := by
    rw [List.any_eq_false]
    intro e he
    rw [entriesAt_zero] at he
    obtain ⟨b, hb, rfl⟩ := List.mem_map.mp he
    have := hpos b hb
    simp only [decide_eq_true_eq, Entry.size, Entry.atPos]
    omega
  rw [hany]

/-- A finished orchestrator answers `none` forever and stays unchanged. -/
theorem orch_run_finished {s : OrchState} (hr : s.iterate_ready = true)
    (hf : s.iterate_finished = true) (n : Nat) :
    s.run n = List.replicate n none := by
  induction n with
  | zero => rfl
  | succ n ih =>
    simp only [OrchState.run, OrchState.next, hr, hf, if_pos, if_true]
    simp [List.replicate, ih]

/-- Stepping the canonical orchestrator state: output the parameter
assignment `makePiecewise` would produce at the same step count, and advance
(or finish after the last combination). -/
theorem orchAt_next {bs : List (List Nat)} (hne : bs ≠ [])
    (hpos : ∀ b ∈ bs, 0 < b.prod) {k : Nat} (hk : k < prodSizes bs) :
    (orchAt bs k).next =
      (some (makePiecewise bs k),
        if k + 1 < prodSizes bs then orchAt bs (k + 1)
        else { entries := entriesAt bs 0, iterate_ready := true,
               iterate_finished := true }) := by
  unfold OrchState.next orchAt
  simp only [if_pos, if_true, Bool.false_eq_true, if_false]
  rw [entriesAt_currents hpos k, advance_entriesAt hne hpos hk]
  by_cases h : k + 1 < prodSizes bs
  · simp [h]
  · simp [h]

/-- Running from the canonical state at step `k`: outputs
`makePiecewise k, …, makePiecewise (total-1)`, then `none` forever. -/
theorem orch_run_at {bs : List (List Nat)} (hne : bs ≠ [])
    (hpos : ∀ b ∈ bs, 0 < b.prod) (k n : Nat) (hk : k < prodSizes bs) :
    (orchAt bs k).run n =
      ((List.range' k (min n (prodSizes bs - k))).map
        (fun j => some (makePiecewise bs j))) ++
      List.replicate (n - (prodSizes bs - k)) none := by
  induction n generalizing k with
  | zero => simp [OrchState.run]
  | succ n ih =>
    simp only [OrchState.run, orchAt_next hne hpos hk]
    by_cases h : k + 1 < prodSizes bs
    · rw [if_pos h, ih (k + 1) h]
      have hmin : min (n + 1) (prodSizes bs - k) =
          min n (prodSizes bs - (k + 1)) + 1 := by omega
      have hrep : n + 1 - (prodSizes bs - k) =
          n - (prodSizes bs - (k + 1)) := by omega
      rw [hmin, hrep, List.range'_succ]
      simp
    · rw [if_neg h, orch_run_finished rfl rfl n]
      have hmin : min (n + 1) (prodSizes bs - k) = 1 := by omega
      have hrep : n + 1 - (prodSizes bs - k) = n := by omega
      rw [hmin, hrep, List.range'_succ]
      simp [List.replicate]

/-- Claim C1: For every orchestrator whose entries all have positive size and
every step count `k < size()`, the `k`-th piecewise model produced by
sequential iteration — `reset()` followed by `k+1` calls of `next()` — carries
for every entry the same parameter assignment (per-entry multi-index, hence
the same `grid.makeModel` values) as the stateless `makePiecewise(k)`. -/
theorem sequential_matches_makePiecewise (bs : List (List Nat)) (k : Nat)
    (hne : bs ≠ []) (hpos : ∀ b ∈ bs, 0 < b.prod) (hk : k < prodSizes bs) :
    (((OrchState.init bs).reset).run (k + 1))[k]? =
      some (some (makePiecewise bs k)) := by
  rw [orch_reset_init hne hpos, orch_run_at hne hpos 0 (k + 1)
    (by omega : 0 < prodSizes bs)]
  have hmin : min (k + 1) (prodSizes bs - 0) = k + 1 := by omega
  rw [hmin]
  rw [List.getElem?_append_left (by simp [List.length_range'] : k <
    ((List.range' 0 (k + 1)).map (fun j => some (makePiecewise bs j))).length)]
  rw [List.getElem?_map, List.getElem?_range' 0 1 (by omega)]
  simp

/-- Witness for `sequential_matches_makePiecewise`: two entries of bases
`[2]` and `[3]` (sizes 2 and 3, `size() = 6`), step `k = 4`. -/
theorem sequential_matches_makePiecewise_witness :
    (((OrchState.init [[2], [3]]).reset).run 5)[4]? =
      some (some (makePiecewise [[2], [3]] 4)) :=
  sequential_matches_makePiecewise [[2], [3]] 4 (by decide) (by decide)
    (by decide)

theorem prodSizes_cons (b : List Nat) (rest : List (List Nat)) :
    prodSizes (b :: rest) = b.prod * prodSizes rest := by
  simp [prodSizes]

/-- The locals `makePiecewise` strips off the global index are exactly the
mixed-radix decode of the global index over the entry sizes, and each entry
then decodes its local over its own bases. -/
theorem makePiecewise_eq_locals {bs : List (List Nat)}
    (hpos : ∀ b ∈ bs, 0 < b.prod) (g : Nat) :
    makePiecewise bs g =
      (bs.zip (decodeIdx (bs.map List.prod) g)).map
        (fun p => decodeIdx p.1 p.2) := by
  induction bs generalizing g with
  | nil => rfl
  | cons b rest ih =>
    have hb : 0 < b.prod := hpos b (List.mem_cons_self b rest)
    simp only [makePiecewise, List.map_cons, decodeIdx,
      if_neg (by omega : ¬ b.prod = 0), List.zip_cons_cons, if_pos hb]
    rw [ih (fun x hx => hpos x (List.mem_cons_of_mem _ hx))]

/-- The function `makePiecewise` reads the global index only modulo the total size. -/
theorem makePiecewise_mod {bs : List (List Nat)}
    (hpos : ∀ b ∈ bs, 0 < b.prod) (g : Nat) :
    makePiecewise bs (g % prodSizes bs) = makePiecewise bs g := by
  induction bs generalizing g with
  | nil => rfl
  | cons b rest ih =>
    have hb : 0 < b.prod := hpos b (List.mem_cons_self b rest)
    rw [prodSizes_cons]
    simp only [makePiecewise, if_pos hb]
    rw [Nat.mod_mul_right_mod, Nat.mod_mul_right_div_self,
      ih (fun x hx => hpos x (List.mem_cons_of_mem _ hx))]

theorem init_size (bs : List (List Nat)) :
    (OrchState.init bs).size = if bs.isEmpty then 0 else prodSizes bs := by
  have hmap : (bs.map Entry.init).map Entry.size = bs.map List.prod := by
    rw [List.map_map]
    apply List.map_congr_left
    intro x _
    rfl
  unfold OrchState.init OrchState.size
  rw [hmap]
  cases bs with
  | nil => rfl
  | cons b rest => rfl

/-- Claim C10: For every orchestrator whose entries all have positive size,
`makePiecewise` is total over all global indices: for every `g` (also
`g ≥ size()`) each entry's decoded local index stays strictly below that
entry's size, and `makePiecewise g` builds the same piecewise model as
`makePiecewise (g % size())`. -/
theorem makePiecewise_total (bs : List (List Nat)) (g : Nat)
    (hpos : ∀ b ∈ bs, 0 < b.prod) :
    List.Forall₂ (· < ·) (decodeIdx (bs.map List.prod) g) (bs.map List.prod) ∧
    makePiecewise bs g = makePiecewise bs (g % (OrchState.init bs).size) := by
  constructor
  · apply decodeIdx_lt
    intro s hs
    obtain ⟨b, hb, rfl⟩ := List.mem_map.mp hs
    exact hpos b hb
  · rw [init_size]
    cases bs with
    | nil => rfl
    | cons b rest =>
      rw [if_neg (by simp)]
      exact (makePiecewise_mod hpos g).symm

/-- Witness for `makePiecewise_total`: entries of bases `[2]` and `[3]`
(`size() = 6`), out-of-range global index `g = 11`. -/
theorem makePiecewise_total_witness :
    List.Forall₂ (· < ·) (decodeIdx ([[2], [3]].map List.prod) 11)
      ([[2], [3]].map List.prod) ∧
    makePiecewise [[2], [3]] 11 =
      makePiecewise [[2], [3]] (11 % (OrchState.init [[2], [3]]).size) :=
  makePiecewise_total [[2], [3]] 11 (by decide)

/-! ## UniformRange (`include/aip/params/uniform_range.hpp`)

`UniformRange<T>` holds `min`, `max`, `step`; `size()` returns `0` when
`step ≤ 0` or `max < min`, else `⌊(max-min)/step⌋ + 1`; `operator[]` returns
`min + i·step`.  The C++ computes over `double` (after checking the same
guards once on `T` and once on `double`); the embedding uses `ℚ`, on which
the guard tests and — for the dyadic values appearing in the claims —
the arithmetic agree exactly with IEEE-754 `double`. -/

structure UniformRange where
  min : ℚ
  max : ℚ
  step : ℚ

/-- Embeds `UniformRange::size` (`uniform_range.hpp:52-66`). -/
def UniformRange.size (r : UniformRange) : Nat :=
  if ¬ r.step > 0 then 0
  else if r.max < r.min then 0
  else (⌊(r.max - r.min) / r.step⌋).toNat + 1

/-- Embeds the subscript operator of `UniformRange` (`uniform_range.hpp:76-80`): `min + i·step`. -/
def UniformRange.get (r : UniformRange) (i : Nat) : ℚ :=
  r.min + (i : ℚ) * r.step

theorem orch_next_none_of_finished {s : OrchState}
    (hr : s.iterate_ready = true) (hf : s.iterate_finished = true) :
    s.next = (none, s) := by
  unfold OrchState.next
  simp [hr, hf]

/-- Claim C6: Every `UniformRange` configured with `step ≤ 0` or `max < min`
has `size() = 0`; every orchestrator holding an entry whose grid includes
such a range has `size() = 0`, and its sequential iteration is immediately
exhausted: after `reset()` the first `next()` returns `none`. -/
theorem degenerate_range_empties (r : UniformRange)
    (grids : List (List UniformRange)) (g0 : List UniformRange)
    (hmem : g0 ∈ grids) (hr : r ∈ g0)
    (hbad : r.step ≤ 0 ∨ r.max < r.min) :
    r.size = 0 ∧
    (OrchState.init (grids.map (fun gr => gr.map UniformRange.size))).size = 0 ∧
    ((OrchState.init
        (grids.map (fun gr => gr.map UniformRange.size))).reset).next.1 =
      none := by
  have hsz : r.size = 0 := by
    unfold UniformRange.size
    rcases hbad with h | h
    · rw [if_pos (not_lt.mpr h)]
    · by_cases hs : (0 : ℚ) < r.step
      · rw [if_neg (not_not_intro hs), if_pos h]
      · rw [if_pos hs]
  have hzero : (0 : Nat) ∈ g0.map UniformRange.size :=
    List.mem_map.mpr ⟨r, hr, hsz⟩
  have hprod : (g0.map UniformRange.size).prod = 0 := List.prod_eq_zero hzero
  set bsq := grids.map (fun gr => gr.map UniformRange.size) with hbsq
  have hmemb : g0.map UniformRange.size ∈ bsq :=
    List.mem_map.mpr ⟨g0, hmem, rfl⟩
  have hne : bsq ≠ [] := by
    intro h
    rw [h] at hmemb
    exact absurd hmemb (List.not_mem_nil _)
  refine ⟨hsz, ?_, ?_⟩
  · rw [init_size]
    rw [if_neg (by simpa [List.isEmpty_iff] using hne)]
    exact List.prod_eq_zero
      (List.mem_map.mpr ⟨g0.map UniformRange.size, hmemb, hprod⟩)
  · -- reset finishes immediately: some entry has size 0
    have hfin : ((OrchState.init bsq).reset).iterate_finished = true := by
      unfold OrchState.init OrchState.reset
      have hemp : ((bsq.map Entry.init).isEmpty) = false := by
        rw [List.isEmpty_eq_false]
        simp only [ne_eq, List.map_eq_nil_iff]
        exact hne
      simp only [hemp, Bool.false_eq_true, if_false]
      rw [List.any_eq_true]
      refine ⟨(Entry.init (g0.map UniformRange.size)).reset, ?_, ?_⟩
      · rw [List.map_map]
        exact List.mem_map.mpr ⟨g0.map UniformRange.size, hmemb, rfl⟩
      · simp only [decide_eq_true_eq, Entry.reset, Entry.init, Entry.size]
        exact hprod
    have hready : ((OrchState.init bsq).reset).iterate_ready = true := by
      unfold OrchState.init OrchState.reset
      by_cases h : (bsq.map Entry.init).isEmpty <;> simp [h]
    rw [orch_next_none_of_finished hready hfin]

/-- Witness for `degenerate_range_empties`: the range `min 0, max 1,
step -1` (`step ≤ 0`) inside a one-entry orchestrator. -/
theorem degenerate_range_empties_witness :
    (UniformRange.mk 0 1 (-1)).size = 0 ∧
    (OrchState.init ([[UniformRange.mk 0 1 (-1)]].map
      (fun gr => gr.map UniformRange.size))).size = 0 ∧
    ((OrchState.init ([[UniformRange.mk 0 1 (-1)]].map
      (fun gr => gr.map UniformRange.size))).reset).next.1 = none :=
  degenerate_range_empties (UniformRange.mk 0 1 (-1))
    [[UniformRange.mk 0 1 (-1)]] [UniformRange.mk 0 1 (-1)]
    (by simp) (by simp) (by norm_num)

/-! ## PiecewiseModel (`include/aip/model/piecewise_model.hpp`)

Ordered `(Domain, Model)` pairs; evaluation is a linear scan returning the
output of the first model whose domain accepts the input, else a sentinel.
The C++ picks the sentinel from the output type at compile time
(`std::numeric_limits<Out>::quiet_NaN()` for floating-point `Out`, the
value-initialized `Out{}` otherwise, `piecewise_model.hpp:51-55`); the
embedding carries that type-determined constant as the `sentinel` field.
`operator()` is `noexcept` and total — the no-match case returns the sentinel
and never raises, which the embedding reflects by being a total function. -/

structure PiecewiseModel (In Out : Type) where
  entries : List ((In → Bool) × (In → Out))
  sentinel : Out

/-- The scan loop of `PiecewiseModel::operator()`
(`piecewise_model.hpp:44-56`). -/
def pmScan {In Out : Type} (sentinel : Out) (x : In) :
    List ((In → Bool) × (In → Out)) → Out
  | [] => sentinel
  | e :: es => if e.1 x then e.2 x else pmScan sentinel x es

/-- Embeds the call operator of `PiecewiseModel`. -/
def PiecewiseModel.eval {In Out : Type} (pm : PiecewiseModel In Out) (x : In) :
    Out :=
  pmScan pm.sentinel x pm.entries

/-- Claim C5: Evaluation scans the `(Domain, Model)` pairs in registration
order and returns the output of the first model whose domain accepts the
input; if no domain accepts it, it returns the sentinel (quiet NaN for
floating-point outputs, the zero default otherwise — the type-determined
`sentinel` field) and, being a total function, never raises. -/
theorem piecewise_eval_first_match {In Out : Type} (pm : PiecewiseModel In Out)
    (x : In) :
    pm.eval x =
      ((pm.entries.find? (fun p => p.1 x)).map (fun p => p.2 x)).getD
        pm.sentinel := by
  unfold PiecewiseModel.eval
  induction pm.entries with
  | nil => rfl
  | cons e es ih =>
    by_cases h : e.1 x = true
    · rw [pmScan, if_pos h,
        List.find?_cons_of_pos (p := fun q => q.1 x) es (by exact h)]
      rfl
    · rw [pmScan, if_neg h,
        List.find?_cons_of_neg (p := fun q => q.1 x) es (by exact h), ih]

/-! ## The entry-interface orchestrator: free and constrained segments

`IEntry<In, Out, Domain>` (`ientry.hpp`) is the type-erased segment interface
of the orchestrator variant that supports boundary-constrained segments:
`makeAt(local, built, self)` builds the segment's model for local index
`local` given the vector of already-built models and the segment's own
position, returning a null `shared_ptr` when no model can be produced.

The concrete scenario of the claims (from `test_constrained_line.cpp`) has
`In = Out = double`; the embedding uses `ℚ` — every quantity appearing in the
claims is a small dyadic rational, on which IEEE-754 double arithmetic is
exact.  A model is embedded as its evaluation function `ℚ → ℚ`; a null
`shared_ptr<const IModel>` is `none`. -/

/-- Type-erased orchestrator segment (`IEntry`, `ientry.hpp:29-78`),
restricted to the members the claims exercise. -/
structure IEntryQ where
  dom : ℚ → Bool
  size : Nat
  constrained : Bool
  makeAt : Nat → List (Option (ℚ → ℚ)) → Nat → Option (ℚ → ℚ)

/-- Model `Parabola` from `test_constrained_line.cpp:32-40`:
`a·x² + b·x + c` (the `ControlParam` wrappers hold plain values). -/
structure Parabola where
  a : ℚ
  b : ℚ
  c : ℚ

def Parabola.eval (p : Parabola) (x : ℚ) : ℚ := p.a * x * x + p.b * x + p.c

/-- Model `Line` from `test_constrained_line.cpp:42-49`: `k·x + m`. -/
structure Line where
  k : ℚ
  m : ℚ

def Line.eval (l : Line) (x : ℚ) : ℚ := l.k * x + l.m

/-- Binder `FitLineBetween` from `test_constrained_line.cpp:51-60`: fit the
line through `(xL, yL)` and `(xR, yR)`. -/
def fitLineBetween (xL xR : ℚ) (line : Line) (yL yR : ℚ) : Line :=
  let k := (yR - yL) / (xR - xL)
  let m := yL - k * xL
  { line with k := k, m := m }

/-- Grid `ParamGrid<Parabola, UniformRange, &a, &b, &c>`: one `UniformRange` per
controlled member, in member order. -/
structure ParabolaGrid where
  ra : UniformRange
  rb : UniformRange
  rc : UniformRange

/-- The grid's per-dimension bases, as `make_index_space` extracts them. -/
def ParabolaGrid.bases (g : ParabolaGrid) : List Nat :=
  [g.ra.size, g.rb.size, g.rc.size]

/-- Embeds `ParamGrid::makeModel` (`param_grid.hpp:215-222`): pick each member's
value from its range at the member's index. -/
def ParabolaGrid.makeModel (g : ParabolaGrid) (idx : List Nat) : Parabola :=
  { a := g.ra.get (idx.getD 0 0)
    b := g.rb.get (idx.getD 1 0)
    c := g.rc.get (idx.getD 2 0) }

/-- Embeds `FreeEntry::makeAt` (`free_entry.hpp:31-45`) for a `ParabolaGrid`: decode
the local index over the grid's bases, build the model; neighbors and the own
position are ignored. -/
def parabolaFreeEntry (d : ℚ → Bool) (g : ParabolaGrid) : IEntryQ :=
  { dom := d
    size := g.bases.prod
    constrained := false
    makeAt := fun l _built _self =>
      some (Parabola.eval (g.makeModel (decodeIdx g.bases l))) }

/-- Embeds `ConstrainedEntry::makeAt` (`constrained_entry.hpp:39-71`) specialized —
as in the scenario under test — to `Grid = UnitGrid<Line>` (`N = 0`, so the
blank model is the value-initialized `Line{}` and the local index decodes to
nothing): return no model if a required neighbor is absent, else evaluate the
neighbors at the configured boundary inputs and bind the blank model through
them.  The source opens with `assert(self != 0 && self + 1 < built.size())`
(`constrained_entry.hpp:43`); when that precondition fails the C++ has no
defined result — the assert aborts the process in debug builds, and with
`NDEBUG` the subsequent `built[self - 1]` / `built[self + 1]` index the
vector out of bounds (undefined behavior).  The leading guard below only
keeps the Lean function total; the value it returns on that branch is a
modelling artifact on which no theorem in this file depends — every theorem
invoking this function does so at a valid interior position, where the
embedding is faithful. -/
def constrainedMakeAt (leftIn rightIn : ℚ) (binder : Line → ℚ → ℚ → Line)
    (_local : Nat) (built : List (Option (ℚ → ℚ))) (self : Nat) :
    Option (ℚ → ℚ) :=
  if self = 0 ∨ ¬ self + 1 < built.length then none
  else
    match built.getD (self - 1) none, built.getD (self + 1) none with
    | some leftM, some rightM =>
        let leftOut := leftM leftIn
        let rightOut := rightM rightIn
        let m : Line := { k := 0, m := 0 }
        some (Line.eval (binder m leftOut rightOut))
    | _, _ => none

/-- A constrained line segment (`ConstrainedEntry` over `UnitGrid<Line>`,
`size() = UnitGrid::size() = 1`). -/
def constrainedLineEntry (d : ℚ → Bool) (leftIn rightIn : ℚ)
    (binder : Line → ℚ → ℚ → Line) : IEntryQ :=
  { dom := d
    size := 1
    constrained := true
    makeAt := constrainedMakeAt leftIn rightIn binder }

/-- Modelled from the spec: the registration surface of the entry-interface
orchestrator — the variant of `Orchestrator` holding `IEntry`-based segments,
whose `add`/`addConstrained` methods are not under `src/` (only the segment
classes and their callers in `test_constrained_line.cpp` are).  Spec §6:
"add a free segment (domain, grid[, name]); add a constrained segment
(domain, grid, leftBoundaryInput, rightBoundaryInput, binder)" — registration
appends the segment to the ordered entry list.  No position validation is
modelled: the `Orchestrator::add` that is under `src/`
(`orchestrator.hpp:155-161`) appends unconditionally, and
`test_constrained_line.cpp:83-84` registers its constrained segment while it
is the last entry and only afterwards adds the right neighbor, so a
registration-time last-position rejection would contradict that passing
test. -/
def addEntry (entries : List IEntryQ) (e : IEntryQ) : List IEntryQ :=
  entries ++ [e]

/-- Modelled from the spec: the two-pass build of the entry-interface
orchestrator's `makePiecewise` (spec §4.4): decompose the global index into
per-entry locals by mixed radix, entry 0 fastest; build all Free entries by
position, then all Constrained entries by position, each `makeAt` receiving
the vector of models built so far and its own position. -/
def buildAll (entries : List IEntryQ) (g : Nat) : List (Option (ℚ → ℚ)) :=
  let locals := decodeIdx (entries.map IEntryQ.size) g
  let pass1 := (List.range entries.length).map (fun i =>
    match entries[i]?, locals[i]? with
    | some e, some l =>
        if e.constrained then none
        else e.makeAt l (List.replicate entries.length none) i
    | _, _ => none)
  (List.range entries.length).foldl (fun built i =>
    match entries[i]?, locals[i]? with
    | some e, some l =>
        if e.constrained then built.set i (e.makeAt l built i) else built
    | _, _ => built) pass1

/-- Modelled from the spec: assemble the `PiecewiseModel` from the built
models in registration order (spec §2: "ordered (Domain, Model) pairs"); a
slot whose build yielded no model contributes no pair.  `Out = double`, whose
sentinel is the quiet NaN (not representable in `ℚ`; no claim evaluates the
no-match branch of this model, so the embedded sentinel value is never
reached). -/
def makePiecewiseQ (entries : List IEntryQ) (g : Nat) : PiecewiseModel ℚ ℚ :=
  { entries := (entries.zip (buildAll entries g)).filterMap
      (fun p => p.2.map (fun m => (p.1.dom, m)))
    sentinel := 0 }

/-! ### The three-segment scenario of `test_constrained_line.cpp`

`x1 = -1`, `x2 = 1`; left domain `x < x1` with a `Parabola` grid pinned to
`(a,b,c) = (1,0,0)` (ranges `{1,1,1}`, `{0,0,1}`, `{0,0,1}`), right domain
`x ≥ x2` pinned to `(0.5,0,0)`, mid domain `x1 ≤ x < x2` a constrained `Line`
over `UnitGrid` fit through `(x1, left(x1))` and `(x2, right(x2))`. -/

/-- Domain predicate for the left segment (`test_constrained_line.cpp:21-30`). -/
def leftDomC8 : ℚ → Bool := fun x => decide (x < -1)

/-- Domain predicate for the mid segment. -/
def midDomC8 : ℚ → Bool := fun x => decide (-1 ≤ x ∧ x < 1)

/-- Domain predicate for the right segment. -/
def rightDomC8 : ℚ → Bool := fun x => decide (1 ≤ x)

/-- Grid `leftG` (`test_constrained_line.cpp:69-72`): ranges `a:(1,1,1)`,
`b:(0,0,1)`, `c:(0,0,1)`. -/
def leftGridC8 : ParabolaGrid := ⟨⟨1, 1, 1⟩, ⟨0, 0, 1⟩, ⟨0, 0, 1⟩⟩

/-- Grid `rightG` (`test_constrained_line.cpp:74-77`): `a:(0.5,0.5,1)`. -/
def rightGridC8 : ParabolaGrid := ⟨⟨1/2, 1/2, 1⟩, ⟨0, 0, 1⟩, ⟨0, 0, 1⟩⟩

/-- The registered entry sequence of the scenario
(`test_constrained_line.cpp:81-84`). -/
def entriesC8 : List IEntryQ :=
  addEntry (addEntry (addEntry []
    (parabolaFreeEntry leftDomC8 leftGridC8))
    (constrainedLineEntry midDomC8 (-1) 1 (fitLineBetween (-1) 1)))
    (parabolaFreeEntry rightDomC8 rightGridC8)

/-- The scenario's `orch.makePiecewise(0)`. -/
def pmC8 : PiecewiseModel ℚ ℚ := makePiecewiseQ entriesC8 0

set_option maxHeartbeats 1000000 in
/-- Claim C8: In the three-segment configuration with `x1 = -1`, `x2 = 1`, the
composed piecewise model evaluates to `1 = 1·x1²` at `x1` (the mid-domain
line meets the left parabola's boundary value), to `3/4` — the linear
interpolation of the two boundary values — at `x = 0`, and to
`0.5·x² ` (so `0.5 = 0.5·x2²` at the boundary) at every `x` at or just above
`x2`. -/
theorem constrained_line_between_parabolas (x : ℚ) (hx : 1 ≤ x) :
    pmC8.eval (-1) = 1 ∧ pmC8.eval 0 = 3 / 4 ∧ pmC8.eval x = x * x / 2 := by
  refine ⟨?_, ?_, ?_⟩
  · norm_num [pmC8, entriesC8, makePiecewiseQ, buildAll, addEntry,
      parabolaFreeEntry, constrainedLineEntry, constrainedMakeAt,
      ParabolaGrid.bases, ParabolaGrid.makeModel, UniformRange.get, decodeIdx,
      PiecewiseModel.eval, pmScan, Parabola.eval, Line.eval, fitLineBetween,
      leftDomC8, midDomC8, rightDomC8, leftGridC8, rightGridC8,
      List.range_succ, List.foldl, List.getD]
  · norm_num [pmC8, entriesC8, makePiecewiseQ, buildAll, addEntry,
      parabolaFreeEntry, constrainedLineEntry, constrainedMakeAt,
      ParabolaGrid.bases, ParabolaGrid.makeModel, UniformRange.get, decodeIdx,
      PiecewiseModel.eval, pmScan, Parabola.eval, Line.eval, fitLineBetween,
      leftDomC8, midDomC8, rightDomC8, leftGridC8, rightGridC8,
      List.range_succ, List.foldl, List.getD]
  · norm_num [pmC8, entriesC8, makePiecewiseQ, buildAll, addEntry,
      parabolaFreeEntry, constrainedLineEntry, constrainedMakeAt,
      ParabolaGrid.bases, ParabolaGrid.makeModel, UniformRange.get, decodeIdx,
      PiecewiseModel.eval, pmScan, Parabola.eval, Line.eval, fitLineBetween,
      leftDomC8, midDomC8, rightDomC8, leftGridC8, rightGridC8,
      List.range_succ, List.foldl, List.getD]
    rw [if_neg (by linarith), if_neg (by simp; intro; linarith), if_pos hx]
    ring

/-- Witness for `constrained_line_between_parabolas` at `x = x2 = 1` (the
first input of the right domain): the model evaluates to `0.5`. -/
theorem constrained_line_between_parabolas_witness :
    (1 : ℚ) ≤ 1 ∧
    (pmC8.eval (-1) = 1 ∧ pmC8.eval 0 = 3 / 4 ∧
      pmC8.eval 1 = 1 * 1 / 2) :=
  ⟨le_refl 1, constrained_line_between_parabolas 1 (le_refl 1)⟩

/-- A batch exhibiting an absent neighbor inside the two-pass build: the two
middle entries are both constrained (each one's inner neighbor is therefore
absent when its `makeAt` runs), between two free parabola segments. -/
def entriesC9 : List IEntryQ :=
  addEntry (addEntry (addEntry (addEntry []
    (parabolaFreeEntry leftDomC8 leftGridC8))
    (constrainedLineEntry midDomC8 (-1) 1 (fitLineBetween (-1) 1)))
    (constrainedLineEntry midDomC8 (-1) 1 (fitLineBetween (-1) 1)))
    (parabolaFreeEntry rightDomC8 rightGridC8)

/-- Claim C9: When `ConstrainedEntry::makeAt` is invoked with the required left
(`self-1`) or right (`self+1`) neighbor absent from the vector of built
models, it yields no model for that slot; in a whole batch (the two-pass
build of `entriesC9` at combination 0) the absent models stay confined to
their slots — the free slots are still built, the batch is not aborted. -/
theorem constrained_missing_neighbor_yields_none (leftIn rightIn : ℚ)
    (binder : Line → ℚ → ℚ → Line) (l : Nat)
    (built : List (Option (ℚ → ℚ))) (self : Nat)
    (h0 : self ≠ 0) (hlen : self + 1 < built.length)
    (habs : built.getD (self - 1) none = none ∨
      built.getD (self + 1) none = none) :
    constrainedMakeAt leftIn rightIn binder l built self = none ∧
    (buildAll entriesC9 0).map Option.isSome = [true, false, false, true] := by
  constructor
  · have hcond : ¬ (self = 0 ∨ ¬ self + 1 < built.length) := by
      push_neg
      exact ⟨h0, hlen⟩
    unfold constrainedMakeAt
    rw [if_neg hcond]
    rcases habs with h | h
    · rw [h]
    · rw [h]
      cases built.getD (self - 1) none <;> rfl
  · rfl

/-- Witness for `constrained_missing_neighbor_yields_none`: position 1 in a
three-slot vector whose right neighbor slot is `none`. -/
theorem constrained_missing_neighbor_yields_none_witness :
    constrainedMakeAt (-1) 1 (fitLineBetween (-1) 1) 0
      [some (fun x => x), none, none] 1 = none ∧
    (buildAll entriesC9 0).map Option.isSome = [true, false, false, true] :=
  constrained_missing_neighbor_yields_none (-1) 1 (fitLineBetween (-1) 1) 0
    [some (fun x => x), none, none] 1 (by decide) (by decide)
    (Or.inr rfl)

/-- The entry sequence refuting C4: the constrained segment is registered
first (position 0), then one free segment. -/
def entriesC4 : List IEntryQ :=
  addEntry (addEntry []
    (constrainedLineEntry midDomC8 (-1) 1 (fitLineBetween (-1) 1)))
    (parabolaFreeEntry rightDomC8 rightGridC8)

/-- Claim C4, counterexample: registering a constrained entry at position 0
succeeds.  The registered sequence has the constrained segment at position 0
(also, between the two registrations, at the last position) — the
registration surface appended it without raising any configuration error,
refuting the claim that such a registration "is rejected at registration
time". -/
theorem constrained_first_position_registers :
    entriesC4.length = 2 ∧
    (entriesC4.getD 0 (parabolaFreeEntry rightDomC8 rightGridC8)).constrained
      = true :=
  ⟨rfl, rfl⟩

/-- Claim C4, amended: registering a Constrained entry at position 0 or the
last position is not rejected at registration time: registration
unconditionally appends the segment as the new last entry, leaving the
previously registered entries unchanged — no configuration error exists on
that path.  (The interior-position requirement surfaces only when the model
is built, as the assertion in `ConstrainedEntry::makeAt`
(`constrained_entry.hpp:43`): a debug-build abort, or out-of-bounds vector
indexing — undefined behavior — with assertions disabled; neither is a
defined rejection, and neither is expressible as a value of the shallow
embedding.) -/
theorem constrained_registration_never_rejects (es : List IEntryQ)
    (e : IEntryQ) :
    (addEntry es e).length = es.length + 1 ∧
    (addEntry es e).getLast? = some e ∧
    (addEntry es e).take es.length = es := by
  refine ⟨by simp [addEntry], by simp [addEntry], by simp [addEntry]⟩

end AIP
